import Mathlib

/-
Verification development for the marshal PII-stripping core.

Shallow embedding of the Rust sources:
  src/processor/chunk.rs  (chunk model and the two converters)
  src/rule.rs             (rule engine: redactions, regex subroutine, processor construction)
  src/processor.rs        (type-directed traversal: ValueInfo, process_string, primitive dispatch)
  src/builtinrules.rs     (built-in catalog; dead data in this snapshot, see newProcessor)

Rust strings are modelled as lists of unicode scalar values (Lean Char);
byte positions are modelled through an explicit UTF-8 width function, so that
the distinction between byte indices and char indices in the source is kept.
Code that can panic (slice indexing with invalid ranges, Vec::pop().unwrap())
is modelled in the Option monad: none stands for a reachable panic.

External crates (regex, hmac, sha1, sha2) are collaborators outside the
repository: a regex is modelled by its observable capture behaviour, and the
keyed-hash function of rule.rs (hash_value, which delegates to the hmac crate)
is a parameter of every definition that needs it.
-/

/-- A Rust string slice, as its list of unicode scalar values. -/
abbrev RStr := List Char

/-- Number of UTF-8 bytes of one unicode scalar value (the width Rust uses
for byte indexing of str). -/
def charWidth (c : Char) : Nat :=
  if c.val < 0x80 then 1 else if c.val < 0x800 then 2 else if c.val < 0x10000 then 3 else 4

/-- UTF-8 byte length of a string, Rust str::len. -/
def utf8Len : RStr → Nat
  | [] => 0
  | c :: cs => charWidth c + utf8Len cs

/-- Drop the first n bytes of a string: some result iff n is in bounds and on
a char boundary, as Rust str::get(n..). -/
def sdrop : RStr → Nat → Option RStr
  | s, 0 => some s
  | [], _ + 1 => none
  | c :: cs, n + 1 =>
    if charWidth c ≤ n + 1 then sdrop cs (n + 1 - charWidth c) else none

/-- Take the first n bytes of a string: some result iff n is in bounds and on
a char boundary. -/
def stake : RStr → Nat → Option RStr
  | _, 0 => some []
  | [], _ + 1 => none
  | c :: cs, n + 1 =>
    if charWidth c ≤ n + 1 then (stake cs (n + 1 - charWidth c)).map (c :: ·) else none

/-- Byte-range slicing, Rust str::get(a..b): some result iff a ≤ b and both
ends are in-bounds char boundaries. -/
def sget (s : RStr) (a b : Nat) : Option RStr :=
  if a ≤ b then (sdrop s a).bind (fun t => stake t (b - a)) else none

/-- Modelled from the spec (meta.rs is not under src/): a note is the pair of
the rule id that caused a modification and an optional human-readable text. -/
structure Note where
  ruleId : RStr
  text : Option RStr
deriving DecidableEq

/-- Modelled from the spec (meta.rs is not under src/): a remark is a note
plus an optional half-open byte range into the redacted string. -/
structure Remark where
  note : Note
  range : Option (Nat × Nat)
deriving DecidableEq

/-- Remark::new - a remark without a range. -/
def Remark.new (n : Note) : Remark := ⟨n, none⟩

/-- Remark::with_range. -/
def Remark.withRange (n : Note) (r : Nat × Nat) : Remark := ⟨n, some r⟩

/-- Modelled from the spec (meta.rs is not under src/): meta carries remarks,
parse errors, the optional original length and the optional dotted path. -/
structure Meta where
  remarks : List Remark
  errors : List RStr
  original_length : Option Nat
  path : Option RStr
deriving DecidableEq

/-- Default (empty) meta. -/
def Meta.empty : Meta := ⟨[], [], none, none⟩

/-- Modelled from the spec (meta.rs is not under src/): an annotated value is
an optional value paired with its meta. -/
structure Annotated (α : Type) where
  value : Option α
  meta : Meta
deriving DecidableEq

/-- Modelled from the spec (meta.rs is not under src/): removing a value
records the given remark; the value becomes absent while meta persists. -/
def Annotated.withRemovedValue {α : Type} (a : Annotated α) (r : Remark) : Annotated α :=
  ⟨none, { a.meta with remarks := a.meta.remarks ++ [r] }⟩

/-- PiiKind, processor.rs. -/
inductive PiiKind
  | freeform | ip | id | username | sensitive | name | email | databag
deriving DecidableEq, BEq

/-- Cap, processor.rs. -/
inductive Cap
  | summary | message | path | shortPath | databag
deriving DecidableEq

/-- ValueInfo, processor.rs. -/
structure ValueInfo where
  pii_kind : Option PiiKind
  cap : Option Cap

/-- ValueInfo::derive, processor.rs lines 54-68. -/
def ValueInfo.derive (info : ValueInfo) : ValueInfo :=
  { pii_kind := match info.pii_kind with
      | some PiiKind.databag => some PiiKind.databag
      | _ => none
    cap := match info.cap with
      | some Cap.databag => some Cap.databag
      | _ => none }

/-- Modelled from the spec (common.rs is not under src/): the Value union.
The float variants are not representable in the embedding and the container
variants are never constructed by the embedded code paths, so both are
omitted here. -/
inductive RValue
  | null
  | bool (b : Bool)
  | u32 (n : Nat)
  | i32 (n : Int)
  | u64 (n : Nat)
  | i64 (n : Int)
  | str (s : RStr)
deriving DecidableEq

/-- Modelled from the spec (common.rs is not under src/): Display for Value,
used by rule.rs to stringify a value before masking or hashing; a string
value displays as itself, scalars display canonically. -/
def RValue.repr : RValue → RStr
  | .null => "null".data
  | .bool true => "true".data
  | .bool false => "false".data
  | .u32 n => (Nat.repr n).data
  | .u64 n => (Nat.repr n).data
  | .i32 n => (Int.repr n).data
  | .i64 n => (Int.repr n).data
  | .str s => s

/-- Chunk, processor/chunk.rs lines 7-22: a run of unmodified text or a run of
previously redacted text.  The redaction payload (rule id and remark kind in
processor/chunk.rs, a Note in the chunk module used by rule.rs) is modelled as
a Note throughout, matching the spec data model. -/
inductive Chunk
  | text (t : RStr)
  | redaction (t : RStr) (note : Note)
deriving DecidableEq

/-- Chunk::as_str. -/
def Chunk.str : Chunk → RStr
  | .text t => t
  | .redaction t _ => t

/-- Chunk::len - byte length of the chunk text. -/
def Chunk.byteLen (c : Chunk) : Nat := utf8Len c.str

/-- Trailing step of chunks_from_str, processor/chunk.rs lines 71-77: emit the
text after the last consumed remark, if any. -/
def chunksTrailing (text : RStr) (pos : Nat) : List Chunk :=
  if pos < utf8Len text then
    match sdrop text pos with
    | some piece => [Chunk.text piece]
    | none => []
  else []

/-- Remark-walking loop of chunks_from_str, processor/chunk.rs lines 44-69.
A failing slice models the break that silently stops the walk. -/
def chunksLoop (text : RStr) : List Remark → Nat → List Chunk
  | [], pos => chunksTrailing text pos
  | r :: rest, pos =>
    match r.range with
    | none => chunksLoop text rest pos
    | some (f, t) =>
      let cont : List Chunk :=
        match sget text f t with
        | none => chunksTrailing text pos
        | some piece => Chunk.redaction piece r.note :: chunksLoop text rest t
      if pos < f then
        match sget text pos f with
        | none => chunksTrailing text pos
        | some gap => Chunk.text gap :: cont
      else cont

/-- chunks_from_str, processor/chunk.rs lines 40-80. -/
def chunksFromStr (text : RStr) (meta : Meta) : List Chunk :=
  chunksLoop text meta.remarks 0

/-- Concatenation-with-remarks loop of chunks_to_string, processor/chunk.rs
lines 88-98, with the running byte position made explicit. -/
def chunksToLoop : List Chunk → Nat → RStr × List Remark
  | [], _ => ([], [])
  | Chunk.text t :: cs, pos =>
    let r := chunksToLoop cs (pos + utf8Len t)
    (t ++ r.1, r.2)
  | Chunk.redaction t note :: cs, pos =>
    let r := chunksToLoop cs (pos + utf8Len t)
    (t ++ r.1, Remark.withRange note (pos, pos + utf8Len t) :: r.2)

/-- chunks_to_string, processor/chunk.rs lines 83-102: concatenates the chunks
and replaces the remarks of the given meta with the reconstructed ones. -/
def chunksToString (chunks : List Chunk) (meta : Meta) : RStr × Meta :=
  ((chunksToLoop chunks 0).1, { meta with remarks := (chunksToLoop chunks 0).2 })

/-- One match reported by the regex engine: the optional byte span of every
capture group, group 0 being the whole match. -/
structure Captures where
  groups : List (Option (Nat × Nat))

/-- The regex crate is an external collaborator; a compiled regex is modelled
by its observable behaviour: captures_iter and is_match. -/
structure Regex where
  capturesIter : RStr → List Captures
  isMatchFn : RStr → Bool

/-- HashAlgorithm, rule.rs lines 92-102. -/
inductive HashAlgorithm
  | hmacSha1 | hmacSha256 | hmacSha512
deriving DecidableEq

/-- Behaviour of HashAlgorithm::hash_value, rule.rs lines 111-124: it
delegates to the external hmac/sha crates, so the development is
parameterized by the function (algorithm, text, key) to MAC output text. -/
def HashValueFn := HashAlgorithm → RStr → RStr → RStr

/-- Redaction, rule.rs lines 134-163. -/
inductive Redaction
  | replace (new_value : RValue)
  | mask (mask_char : Char) (chars_to_ignore : RStr) (range : Option Int × Option Int)
  | hash (algorithm : HashAlgorithm) (key : RStr)

/-- Two's-complement wrap into i32, as the release-mode multiplication
(idx * -1) of the source behaves.  (A debug build panics on the one
overflowing input idx = i32::MIN; the model follows the release build.) -/
def wrapI32 (v : Int) : Int := (v + 2147483648) % 4294967296 - 2147483648

/-- The i32-to-usize cast of the source on a 64-bit target: sign extension
then reinterpretation, i.e. reduction mod 2^64. -/
def i32AsUsize (v : Int) : Nat := (v % 18446744073709551616).toNat

/-- get_range_index, rule.rs lines 166-172.  Nat subtraction is the
saturating subtraction of the source; the negation (idx * -1) wraps in i32
and is then cast to usize, so for idx = i32::MIN the subtrahend is the huge
value 2^64 - 2^31, not 2^31. -/
def get_range_index (idx : Option Int) (len : Nat) (default : Nat) : Nat :=
  match idx with
  | none => default
  | some i => if i < 0 then len - i32AsUsize (wrapI32 (i * -1)) else min i.toNat len

/-- in_range, rule.rs lines 165-177. -/
def in_range (range : Option Int × Option Int) (pos len : Nat) : Bool :=
  let start := get_range_index range.1 len 0
  let stop := get_range_index range.2 len len
  decide (start ≤ pos) && decide (pos < stop)

/-- The character buffer built by the Mask arm of
Redaction::insert_replacement_chunks, rule.rs lines 187-196: chars are
enumerated by char index while the length passed to in_range is the byte
length text.len(). -/
def maskBuf (mask_char : Char) (chars_to_ignore : RStr) (range : Option Int × Option Int)
    (text : RStr) : RStr :=
  text.enum.map fun p =>
    if in_range range p.1 (utf8Len text) && !(chars_to_ignore.contains p.2) then mask_char
    else p.2

/-- Redaction::insert_replacement_chunks, rule.rs lines 180-212. -/
def Redaction.insertReplacementChunks (hv : HashValueFn) (red : Redaction) (text : RStr)
    (note : Note) (output : List Chunk) : List Chunk :=
  match red with
  | .mask mc ignore range => output ++ [Chunk.redaction (maskBuf mc ignore range text) note]
  | .hash alg key => output ++ [Chunk.redaction (hv alg text key) note]
  | .replace newValue => output ++ [Chunk.redaction newValue.repr note]

/-- Redaction::set_replacement_value, rule.rs lines 214-255.  The recorded
original_length is the source's (original_length as u32), i.e. the byte
length reduced mod 2^32. -/
def Redaction.setReplacementValue (hv : HashValueFn) (red : Redaction)
    (annotated : Annotated RValue) (note : Note) : Annotated RValue :=
  match red with
  | .mask _ _ _ =>
    match annotated with
    | ⟨some value, meta⟩ =>
      let valueAsString := value.repr
      let originalLength := utf8Len valueAsString
      let output := red.insertReplacementChunks hv valueAsString note []
      let vm := chunksToString output meta
      let meta2 :=
        if utf8Len vm.1 ≠ originalLength ∧ vm.2.original_length = none then
          { vm.2 with original_length := some (originalLength % 4294967296) }
        else vm.2
      ⟨some (RValue.str vm.1), meta2⟩
    | ⟨none, meta⟩ => Annotated.withRemovedValue ⟨none, meta⟩ (Remark.new note)
  | .hash alg key =>
    match annotated with
    | ⟨some value, meta⟩ =>
      let valueAsString := value.repr
      let originalLength := utf8Len valueAsString
      let value2 := hv alg valueAsString key
      let meta2 :=
        if utf8Len value2 ≠ originalLength ∧ meta.original_length = none then
          { meta with original_length := some (originalLength % 4294967296) }
        else meta
      ⟨some (RValue.str value2), meta2⟩
    | ⟨none, meta⟩ => Annotated.withRemovedValue ⟨none, meta⟩ (Remark.new note)
  | .replace newValue =>
    ⟨some newValue,
      { annotated.meta with remarks := annotated.meta.remarks ++ [Remark.new note] }⟩

/-- RuleType, rule.rs lines 61-88.  There is no Alias variant in this
snapshot of rule.rs (builtinrules.rs mentions one, but rule.rs does not
define it). -/
inductive RuleType
  | pattern (re : Regex) (replace_groups : Option (List Nat))
  | email | ipv4 | ipv6 | ip | creditcard
  | remove
  | removePair (key_pattern : Regex)

/-- RuleSpec, rule.rs lines 260-265. -/
structure RuleSpec where
  ty : RuleType
  redaction : Option Redaction
  note : Option RStr

/-- Rule, rule.rs lines 269-272: a rule config plus id. -/
structure Rule where
  id : RStr
  spec : RuleSpec

/-- Rule::create_note, rule.rs lines 290-292. -/
def Rule.createNote (rule : Rule) : Note := ⟨rule.id, rule.spec.note⟩

/-- Rule::insert_replacement_chunks, rule.rs lines 299-306: with a configured
redaction defer to it, otherwise push an empty redaction chunk. -/
def Rule.insertReplacementChunks (hv : HashValueFn) (rule : Rule) (text : RStr)
    (output : List Chunk) : List Chunk :=
  match rule.spec.redaction with
  | some red => red.insertReplacementChunks hv text rule.createNote output
  | none => output ++ [Chunk.redaction [] rule.createNote]

/-- Rule::replace_value, rule.rs lines 313-320. -/
def Rule.replaceValue (hv : HashValueFn) (rule : Rule) (annotated : Annotated RValue) :
    Annotated RValue :=
  match rule.spec.redaction with
  | some red => red.setReplacementValue hv annotated rule.createNote
  | none => annotated.withRemovedValue (Remark.new rule.createNote)

/-- Segment walk of process_text, rule.rs lines 386-392: split the text at
every NUL sentinel, popping one prior redaction chunk per NUL; none models
the pop().unwrap() panic on an empty stack. -/
def ptLoop : RStr → RStr → List Chunk → List Chunk → Option (List Chunk × List Chunk)
  | [], acc, rv, stack => some (rv ++ [Chunk.text acc], stack)
  | c :: cs, acc, rv, stack =>
    if c = '\x00' then
      match stack with
      | [] => none
      | top :: stack2 => ptLoop cs [] (rv ++ [Chunk.text acc, top]) stack2
    else ptLoop cs (acc ++ [c]) rv stack

/-- process_text, rule.rs lines 382-393. -/
def processText (text : RStr) (rv stack : List Chunk) : Option (List Chunk × List Chunk) :=
  if text = [] then some (rv, stack) else ptLoop text [] rv stack

/-- Search-string construction of apply_regex_to_chunks, rule.rs lines
368-379: text chunks are flattened with NUL bytes stripped, every redaction
chunk becomes one NUL sentinel and is stacked (in reverse). -/
def buildSearch : List Chunk → RStr × List Chunk
  | [] => ([], [])
  | Chunk.text t :: cs =>
    let r := buildSearch cs
    (t.filter (· ≠ '\x00') ++ r.1, r.2)
  | (Chunk.redaction t note) :: cs =>
    let r := buildSearch cs
    ('\x00' :: r.1, Chunk.redaction t note :: r.2)

/-- Inner loop over capture groups of apply_regex_to_chunks, rule.rs lines
401-417: groups whose (u8-truncated) index is in replace_groups are replaced;
slicing with an invalid byte range models the panic of search_string[a..b]. -/
def innerGroups (hv : HashValueFn) (rule : Rule) (search : RStr) (groups : List Nat) :
    List (Nat × Option (Nat × Nat)) → Nat → List Chunk → List Chunk →
    Option (Nat × List Chunk × List Chunk)
  | [], pos, rv, stack => some (pos, rv, stack)
  | (idx, g) :: rest, pos, rv, stack =>
    if idx = 0 then innerGroups hv rule search groups rest pos rv stack
    else
      match g with
      | none => innerGroups hv rule search groups rest pos rv stack
      | some (gs, ge) =>
        if (idx % 256) ∈ groups then
          match sget search pos gs with
          | none => none
          | some slice =>
            match processText slice rv stack with
            | none => none
            | some (rv2, stack2) =>
              match sget search gs ge with
              | none => none
              | some gtext =>
                innerGroups hv rule search groups rest ge
                  (rule.insertReplacementChunks hv gtext rv2) stack2
        else innerGroups hv rule search groups rest pos rv stack

/-- Outer loop over matches of apply_regex_to_chunks, rule.rs lines 395-436. -/
def outerLoop (hv : HashValueFn) (rule : Rule) (search : RStr)
    (replaceGroups : Option (List Nat)) :
    List Captures → Nat → List Chunk → List Chunk → Option (List Chunk × List Chunk × Nat)
  | [], pos, rv, stack => some (rv, stack, pos)
  | m :: ms, pos, rv, stack =>
    match m.groups.head? with
    | some (some (g0s, g0e)) =>
      let afterTarget : Option (Nat × List Chunk × List Chunk) :=
        match replaceGroups with
        | some groups => innerGroups hv rule search groups m.groups.enum pos rv stack
        | none =>
          match sget search pos g0s with
          | none => none
          | some slice =>
            match processText slice rv stack with
            | none => none
            | some (rv2, stack2) =>
              match sget search g0s g0e with
              | none => none
              | some gtext => some (g0e, rule.insertReplacementChunks hv gtext rv2, stack2)
      match afterTarget with
      | none => none
      | some (pos2, rv2, stack2) =>
        match sget search pos2 g0e with
        | none => none
        | some slice =>
          match processText slice rv2 stack2 with
          | none => none
          | some (rv3, stack3) => outerLoop hv rule search replaceGroups ms g0e rv3 stack3
    | _ => none

/-- Rule::apply_regex_to_chunks, rule.rs lines 361-441.  none models a
reachable panic; the meta is returned untouched. -/
def applyRegexToChunks (hv : HashValueFn) (rule : Rule) (chunks : List Chunk) (meta : Meta)
    (regex : Regex) (replaceGroups : Option (List Nat)) : Option (List Chunk × Meta) :=
  let sr := buildSearch chunks
  let search := sr.1
  let revChunks := sr.2
  match outerLoop hv rule search replaceGroups (regex.capturesIter search) 0 [] revChunks with
  | none => none
  | some (rv, stack, pos) =>
    match sdrop search pos with
    | none => none
    | some tail =>
      match processText tail rv stack with
      | none => none
      | some (rv2, _) => some (rv2, meta)

/-- The four detector regexes of detectors.rs (not under src/; compiled from
fixed patterns there), as abstract regex behaviours. -/
structure Detectors where
  email : Regex
  ipv4 : Regex
  ipv6 : Regex
  creditcard : Regex

/-- Rule::process_chunks, rule.rs lines 326-358. -/
def Rule.processChunks (dets : Detectors) (hv : HashValueFn) (rule : Rule)
    (chunks : List Chunk) (meta : Meta) :
    Option (Except (List Chunk × Meta) (List Chunk × Meta)) :=
  match rule.spec.ty with
  | .pattern re rg => (applyRegexToChunks hv rule chunks meta re rg).map Except.ok
  | .email => (applyRegexToChunks hv rule chunks meta dets.email none).map Except.ok
  | .ipv4 => (applyRegexToChunks hv rule chunks meta dets.ipv4 none).map Except.ok
  | .ipv6 => (applyRegexToChunks hv rule chunks meta dets.ipv6 none).map Except.ok
  | .ip =>
    match applyRegexToChunks hv rule chunks meta dets.ipv4 none with
    | none => none
    | some (c2, m2) =>
      match applyRegexToChunks hv rule c2 m2 dets.ipv6 none with
      | none => none
      | some (c3, m3) => some (Except.ok (c3, m3))
  | .creditcard => (applyRegexToChunks hv rule chunks meta dets.creditcard none).map Except.ok
  | .remove => some (Except.error (chunks, meta))
  | .removePair _ => some (Except.error (chunks, meta))

/-- Rule::process_value, rule.rs lines 447-473. -/
def Rule.processValue (hv : HashValueFn) (rule : Rule) (value : Annotated RValue)
    (_kind : PiiKind) : Except (Annotated RValue) (Annotated RValue) :=
  match rule.spec.ty with
  | .pattern _ _ => Except.error value
  | .email => Except.error value
  | .ipv4 => Except.error value
  | .ipv6 => Except.error value
  | .ip => Except.error value
  | .creditcard => Except.error value
  | .remove => Except.ok (rule.replaceValue hv value)
  | .removePair keyPattern =>
    match value.meta.path with
    | some p => if keyPattern.isMatchFn p then Except.ok (rule.replaceValue hv value)
                else Except.error value
    | none => Except.error value

/-- Indicates that the rule config was invalid, rule.rs lines 26-30. -/
inductive BadRuleConfig
  | badReference (id : RStr)
deriving DecidableEq

/-- RuleConfig, rule.rs lines 276-280; the BTreeMaps are modelled as
association lists. -/
structure RuleConfig where
  rules : List (RStr × RuleSpec)
  applications : List (PiiKind × List RStr)

/-- Resolution of one application entry inside RuleBasedPiiProcessor::new,
rule.rs lines 483-492: each id is looked up in the user rules only; a
missing id aborts with BadReference.  The built-in catalog (builtinrules.rs)
is never consulted here. -/
def buildRules (rules : List (RStr × RuleSpec)) : List RStr → Except BadRuleConfig (List Rule)
  | [] => Except.ok []
  | id :: rest =>
    match List.lookup id rules with
    | some spec =>
      match buildRules rules rest with
      | Except.ok rs => Except.ok (⟨id, spec⟩ :: rs)
      | Except.error e => Except.error e
    | none => Except.error (BadRuleConfig.badReference id)

/-- Application-map construction of RuleBasedPiiProcessor::new, rule.rs
lines 481-493. -/
def buildApps (rules : List (RStr × RuleSpec)) :
    List (PiiKind × List RStr) → Except BadRuleConfig (List (PiiKind × List Rule))
  | [] => Except.ok []
  | (kind, ids) :: rest =>
    match buildRules rules ids with
    | Except.ok rs =>
      match buildApps rules rest with
      | Except.ok apps => Except.ok ((kind, rs) :: apps)
      | Except.error e => Except.error e
    | Except.error e => Except.error e

/-- RuleBasedPiiProcessor::new, rule.rs lines 478-500, reduced to the
applications table it builds (the cfg reference adds nothing). -/
def newProcessor (cfg : RuleConfig) : Except BadRuleConfig (List (PiiKind × List Rule)) :=
  buildApps cfg.rules cfg.applications

/-- The applicable rules for a kind: the applications-map lookup of
pii_process_chunks and pii_process_value, defaulting to no rules. -/
def rulesFor (apps : List (PiiKind × List Rule)) (kind : PiiKind) : List Rule :=
  (List.lookup kind apps).getD []

/-- Rule fold of RuleBasedPiiProcessor::pii_process_chunks, rule.rs lines
527-540, threading the replaced flag. -/
def piiProcessChunksLoop (dets : Detectors) (hv : HashValueFn) :
    List Rule → List Chunk × Meta → Bool → Option (Bool × (List Chunk × Meta))
  | [], rv, replaced => some (replaced, rv)
  | r :: rs, rv, replaced =>
    match r.processChunks dets hv rv.1 rv.2 with
    | none => none
    | some (Except.ok val) => piiProcessChunksLoop dets hv rs val true
    | some (Except.error val) => piiProcessChunksLoop dets hv rs val replaced

/-- RuleBasedPiiProcessor::pii_process_chunks, rule.rs lines 521-547. -/
def piiProcessChunks (dets : Detectors) (hv : HashValueFn)
    (apps : List (PiiKind × List Rule)) (chunks : List Chunk) (meta : Meta)
    (kind : PiiKind) : Option (Except (List Chunk × Meta) (List Chunk × Meta)) :=
  let start :=
    match List.lookup kind apps with
    | some rules => piiProcessChunksLoop dets hv rules (chunks, meta) false
    | none => some (false, (chunks, meta))
  match start with
  | none => none
  | some (replaced, rv) =>
    if replaced then some (Except.ok rv) else some (Except.error rv)

/-- Rule fold of RuleBasedPiiProcessor::pii_process_value, rule.rs lines
551-556: the first rule returning Ok wins. -/
def piiProcessValueLoop (hv : HashValueFn) :
    List Rule → Annotated RValue → PiiKind → Annotated RValue
  | [], v, _ => v
  | r :: rs, v, kind =>
    match r.processValue hv v kind with
    | Except.ok v2 => v2
    | Except.error v2 => piiProcessValueLoop hv rs v2 kind

/-- RuleBasedPiiProcessor::pii_process_value, rule.rs lines 549-559. -/
def piiProcessValue (hv : HashValueFn) (apps : List (PiiKind × List Rule))
    (value : Annotated RValue) (kind : PiiKind) : Annotated RValue :=
  match List.lookup kind apps with
  | some rules => piiProcessValueLoop hv rules value kind
  | none => value

/-- process_string of the blanket Processor impl for PiiProcessor,
processor.rs lines 214-244: chunk the string, run the rules, reassemble, and
record the original length (as u32, i.e. mod 2^32) on change; on Err fall
back to whole-value processing and unwrap a string result, or null the
value. -/
def processString (dets : Detectors) (hv : HashValueFn)
    (apps : List (PiiKind × List Rule)) (annotated : Annotated RStr)
    (info : ValueInfo) : Option (Annotated RStr) :=
  match annotated, info.pii_kind with
  | a, none => some a
  | ⟨none, meta⟩, _ => some ⟨none, meta⟩
  | ⟨some value, meta⟩, some kind =>
    let originalLength := utf8Len value
    let chunks := chunksFromStr value meta
    match piiProcessChunks dets hv apps chunks meta kind with
    | none => none
    | some (Except.ok (chunks2, meta2)) =>
      let vm := chunksToString chunks2 meta2
      let meta3 :=
        if utf8Len vm.1 ≠ originalLength ∧ vm.2.original_length = none then
          { vm.2 with original_length := some (originalLength % 4294967296) }
        else vm.2
      some ⟨some vm.1, meta3⟩
    | some (Except.error (_, meta2)) =>
      match piiProcessValue hv apps ⟨some (RValue.str value), meta2⟩ kind with
      | ⟨some (RValue.str value2), meta4⟩ =>
        let meta5 :=
          if utf8Len value2 ≠ originalLength ∧ meta4.original_length = none then
            { meta4 with original_length := some (originalLength % 4294967296) }
          else meta4
        some ⟨some value2, meta5⟩
      | ⟨_, meta4⟩ => some ⟨none, meta4⟩

/-- The primitive scalar arm of the blanket Processor impl,
impl_primitive_pii_process in processor.rs lines 192-211, generic over the
Value injection (wrap) and the same-variant projection (unwrap) that the
macro instantiates per primitive type. -/
def processPrimitive {α : Type} (hv : HashValueFn) (apps : List (PiiKind × List Rule))
    (wrap : α → RValue) (unwrap : RValue → Option α) (annotated : Annotated α)
    (info : ValueInfo) : Annotated α :=
  match annotated, info.pii_kind with
  | a, none => a
  | ⟨none, meta⟩, _ => ⟨none, meta⟩
  | ⟨some v, meta⟩, some kind =>
    match piiProcessValue hv apps ⟨some (wrap v), meta⟩ kind with
    | ⟨some w, meta2⟩ =>
      match unwrap w with
      | some v2 => ⟨some v2, meta2⟩
      | none => ⟨none, meta2⟩
    | ⟨none, meta2⟩ => ⟨none, meta2⟩

/-- The U32 projection used by the process_u32 instantiation of the macro. -/
def unwrapU32 : RValue → Option Nat
  | RValue.u32 n => some n
  | _ => none

/-- process_u32 of the blanket Processor impl, processor.rs line 248. -/
def processU32 (hv : HashValueFn) (apps : List (PiiKind × List Rule))
    (annotated : Annotated Nat) (info : ValueInfo) : Annotated Nat :=
  processPrimitive hv apps RValue.u32 unwrapU32 annotated info

/-- Spec-side resolve, written from the words of the claims: None maps to the
default, a negative k to max(0, n + k), a non-negative index saturates at n. -/
def resolveSpec (idx : Option Int) (n : Nat) (default : Nat) : Nat :=
  match idx with
  | none => default
  | some k => if k < 0 then (max 0 ((n : Int) + k)).toNat else min k.toNat n

/-- The ranged remarks of a remark list, as bare ranges. -/
def rangedPairs (rs : List Remark) : List (Nat × Nat) :=
  rs.filterMap (·.range)

/-- Well-formedness of a remark-range chain against a string, starting at a
byte position: ranges are ordered, non-overlapping and in-bounds on char
boundaries (every slice the chunker takes succeeds). -/
def chainValid (s : RStr) : Nat → List (Nat × Nat) → Bool
  | _, [] => true
  | pos, (f, t) :: rest =>
    decide (pos ≤ f) && (sget s pos f).isSome && (sget s f t).isSome && chainValid s t rest

/-- The monotonicity property claimed for reconstructed remarks: strictly
increasing in from and strictly non-overlapping. -/
def remarksMonotone : List (Nat × Nat) → Bool
  | [] => true
  | [_] => true
  | (f1, t1) :: (f2, t2) :: rest =>
    decide (f1 < f2) && decide (t1 ≤ f2) && remarksMonotone ((f2, t2) :: rest)

/-- Ordering of ranges relative to a start position: each range begins at or
after the position, is non-empty, and the chain continues from its end. -/
def rangesOkFrom : Nat → List (Nat × Nat) → Bool
  | _, [] => true
  | pos, (f, t) :: rest => decide (pos ≤ f) && decide (f < t) && rangesOkFrom t rest

theorem charWidth_pos (c : Char) : 0 < charWidth c := by
  unfold charWidth
  split_ifs <;> omega

theorem utf8Len_pos {s : RStr} (h : s ≠ []) : 0 < utf8Len s := by
  match s with
  | [] => exact absurd rfl h
  | c :: cs =>
    have := charWidth_pos c
    simp only [utf8Len]
    omega

theorem utf8Len_eq_zero {s : RStr} (h : utf8Len s = 0) : s = [] := by
  match s with
  | [] => rfl
  | c :: cs =>
    have := charWidth_pos c
    simp only [utf8Len] at h
    omega

theorem utf8Len_append (a b : RStr) : utf8Len (a ++ b) = utf8Len a + utf8Len b := by
  induction a with
  | nil => simp [utf8Len]
  | cons c cs ih =>
    simp only [List.cons_append, utf8Len, List.append_eq] at *
    omega

theorem stake_utf8Len : ∀ (s : RStr) (n : Nat) (x : RStr), stake s n = some x → utf8Len x = n := by
  intro s
  induction s with
  | nil =>
    intro n x h
    match n with
    | 0 => simp only [stake, Option.some.injEq] at h; simp [← h, utf8Len]
    | _ + 1 => simp [stake] at h
  | cons c cs ih =>
    intro n x h
    match n with
    | 0 => simp only [stake, Option.some.injEq] at h; simp [← h, utf8Len]
    | n + 1 =>
      simp only [stake] at h
      split at h
      · rcases Option.map_eq_some'.mp h with ⟨x2, hx2, rfl⟩
        have := ih _ _ hx2
        simp only [utf8Len]
        omega
      · exact absurd h (by simp)

theorem stake_append :
    ∀ (s : RStr) (n : Nat) (x : RStr), stake s n = some x →
      ∃ y, sdrop s n = some y ∧ s = x ++ y := by
  intro s
  induction s with
  | nil =>
    intro n x h
    match n with
    | 0 =>
      simp only [stake, Option.some.injEq] at h
      exact ⟨[], rfl, by simp [← h]⟩
    | _ + 1 => simp [stake] at h
  | cons c cs ih =>
    intro n x h
    match n with
    | 0 =>
      simp only [stake, Option.some.injEq] at h
      exact ⟨c :: cs, rfl, by simp [← h]⟩
    | n + 1 =>
      simp only [stake] at h
      split at h
      · rename_i hw
        rcases Option.map_eq_some'.mp h with ⟨x2, hx2, rfl⟩
        rcases ih _ _ hx2 with ⟨y, hy, rfl⟩
        refine ⟨y, ?_, by simp⟩
        simp only [sdrop]
        rw [if_pos hw]
        exact hy
      · exact absurd h (by simp)

theorem sdrop_utf8Len :
    ∀ (s : RStr) (n : Nat) (y : RStr), sdrop s n = some y → utf8Len s = n + utf8Len y := by
  intro s
  induction s with
  | nil =>
    intro n y h
    match n with
    | 0 => simp only [sdrop, Option.some.injEq] at h; simp [← h]
    | _ + 1 => simp [sdrop] at h
  | cons c cs ih =>
    intro n y h
    match n with
    | 0 => simp only [sdrop, Option.some.injEq] at h; simp [← h]
    | n + 1 =>
      simp only [sdrop] at h
      split at h
      · have := ih _ _ h
        simp only [utf8Len]
        omega
      · exact absurd h (by simp)

theorem sdrop_add :
    ∀ (s : RStr) (a : Nat) (u : RStr), sdrop s a = some u →
      ∀ (b : Nat) (v : RStr), sdrop u b = some v → sdrop s (a + b) = some v := by
  intro s
  induction s with
  | nil =>
    intro a u h b v h2
    match a with
    | 0 =>
      simp only [sdrop, Option.some.injEq] at h
      subst h
      simpa using h2
    | _ + 1 => simp [sdrop] at h
  | cons c cs ih =>
    intro a u h b v h2
    match a with
    | 0 =>
      simp only [sdrop, Option.some.injEq] at h
      subst h
      simpa using h2
    | a + 1 =>
      simp only [sdrop] at h
      split at h
      · rename_i hw
        have hrec := ih _ _ h b v h2
        have : a + 1 + b - charWidth c = a + 1 - charWidth c + b := by omega
        simp only [sdrop, show a + 1 + b = (a + b) + 1 by omega]
        rw [if_pos (by omega)]
        rw [show a + b + 1 - charWidth c = a + 1 - charWidth c + b by omega]
        exact hrec
      · exact absurd h (by simp)

theorem sget_decompose {s u : RStr} {a b : Nat} {x : RStr}
    (hd : sdrop s a = some u) (h : sget s a b = some x) :
    a ≤ b ∧ utf8Len x = b - a ∧ ∃ y, sdrop s b = some y ∧ u = x ++ y := by
  simp only [sget] at h
  split at h
  · rename_i hab
    rw [hd] at h
    rw [Option.some_bind] at h
    have hl := stake_utf8Len u (b - a) x h
    rcases stake_append u (b - a) x h with ⟨y, hy, hu⟩
    have := sdrop_add s a _ hd (b - a) y hy
    rw [show a + (b - a) = b by omega] at this
    exact ⟨hab, hl, y, this, hu⟩
  · exact absurd h (by simp)

theorem buildRules_ok_iff (rules : List (RStr × RuleSpec)) (ids : List RStr) :
    (∃ rs, buildRules rules ids = Except.ok rs) ↔
      ∀ id ∈ ids, (List.lookup id rules).isSome = true := by
  induction ids with
  | nil =>
    constructor
    · intro _ id hm
      cases hm
    · intro _
      exact ⟨[], rfl⟩
  | cons id rest ih =>
    simp only [buildRules]
    cases h : List.lookup id rules with
    | none =>
      constructor
      · rintro ⟨rs, hrs⟩; cases hrs
      · intro hall
        have := hall id (by simp)
        rw [h] at this
        cases this
    | some spec =>
      cases h2 : buildRules rules rest with
      | ok rs =>
        have hrest : ∀ id2 ∈ rest, (List.lookup id2 rules).isSome = true :=
          ih.mp ⟨rs, h2⟩
        simp only [List.mem_cons]
        constructor
        · rintro - id2 (rfl | hm)
          · simp [h]
          · exact hrest id2 hm
        · intro _; exact ⟨_, rfl⟩
      | error e =>
        constructor
        · rintro ⟨rs, hrs⟩; cases hrs
        · intro hall
          have : ∃ rs, buildRules rules rest = Except.ok rs :=
            ih.mpr (fun id2 hm => hall id2 (by simp [hm]))
          rcases this with ⟨rs, hrs⟩
          rw [hrs] at h2
          cases h2

theorem buildRules_error (rules : List (RStr × RuleSpec)) (ids : List RStr) (id : RStr)
    (h : buildRules rules ids = Except.error (BadRuleConfig.badReference id)) :
    id ∈ ids ∧ List.lookup id rules = none := by
  induction ids with
  | nil => cases h
  | cons id2 rest ih =>
    simp only [buildRules] at h
    cases h2 : List.lookup id2 rules with
    | none =>
      rw [h2] at h
      cases h
      exact ⟨by simp, h2⟩
    | some spec =>
      rw [h2] at h
      cases h3 : buildRules rules rest with
      | ok rs => rw [h3] at h; cases h
      | error e =>
        rw [h3] at h
        cases h
        rcases ih h3 with ⟨hm, hl⟩
        exact ⟨by simp [hm], hl⟩

theorem buildApps_ok_iff (rules : List (RStr × RuleSpec)) (apps : List (PiiKind × List RStr)) :
    (∃ r, buildApps rules apps = Except.ok r) ↔
      ∀ p ∈ apps, ∀ id ∈ p.2, (List.lookup id rules).isSome = true := by
  induction apps with
  | nil =>
    constructor
    · intro _ p hm
      cases hm
    · intro _
      exact ⟨[], rfl⟩
  | cons p rest ih =>
    rcases p with ⟨kind, ids⟩
    simp only [buildApps]
    cases h : buildRules rules ids with
    | ok rs =>
      cases h2 : buildApps rules rest with
      | ok r2 =>
        have hids := (buildRules_ok_iff rules ids).mp ⟨rs, h⟩
        have hrest := ih.mp ⟨r2, h2⟩
        simp only [List.mem_cons]
        constructor
        · rintro - p2 (rfl | hm)
          · exact hids
          · exact hrest p2 hm
        · intro _; exact ⟨_, rfl⟩
      | error e =>
        constructor
        · rintro ⟨r, hr⟩; cases hr
        · intro hall
          rcases ih.mpr (fun p2 hm => hall p2 (by simp [hm])) with ⟨r2, hr2⟩
          rw [hr2] at h2
          cases h2
    | error e =>
      constructor
      · rintro ⟨r, hr⟩; cases hr
      · intro hall
        rcases (buildRules_ok_iff rules ids).mpr
            (fun id hm => hall (kind, ids) (by simp) id hm) with ⟨rs, hrs⟩
        rw [hrs] at h
        cases h

theorem buildApps_error (rules : List (RStr × RuleSpec)) (apps : List (PiiKind × List RStr))
    (id : RStr) (h : buildApps rules apps = Except.error (BadRuleConfig.badReference id)) :
    (∃ p ∈ apps, id ∈ p.2) ∧ List.lookup id rules = none := by
  induction apps with
  | nil => cases h
  | cons p rest ih =>
    rcases p with ⟨kind, ids⟩
    simp only [buildApps] at h
    cases h2 : buildRules rules ids with
    | ok rs =>
      rw [h2] at h
      cases h3 : buildApps rules rest with
      | ok r2 => rw [h3] at h; cases h
      | error e =>
        rw [h3] at h
        cases h
        rcases ih h3 with ⟨⟨p2, hp2, hid⟩, hl⟩
        exact ⟨⟨p2, by simp [hp2], hid⟩, hl⟩
    | error e =>
      rw [h2] at h
      cases h
      rcases buildRules_error rules ids id h2 with ⟨hm, hl⟩
      exact ⟨⟨(kind, ids), by simp, hm⟩, hl⟩

/-- C2, corrected: RuleBasedPiiProcessor::new resolves application ids against
the user rules only.  Construction succeeds iff every id listed in some
application is a key of cfg.rules; a BadReference(id) error always names an
id that occurs in an application and is absent from the user rules.  The
built-in catalog is never consulted and aliases are never chased. -/
theorem c2_construction_user_rules_only (cfg : RuleConfig) :
    ((∃ apps, newProcessor cfg = Except.ok apps) ↔
      ∀ p ∈ cfg.applications, ∀ id ∈ p.2, (List.lookup id cfg.rules).isSome = true)
    ∧ ∀ id, newProcessor cfg = Except.error (BadRuleConfig.badReference id) →
        (∃ p ∈ cfg.applications, id ∈ p.2) ∧ List.lookup id cfg.rules = none :=
  ⟨buildApps_ok_iff cfg.rules cfg.applications,
   fun id h => buildApps_error cfg.rules cfg.applications id h⟩

/-- C2, counterexample to the claim as stated: a config whose only
application references the built-in id "@email" (present in the built-in
catalog of builtinrules.rs, absent from the user rules) does not construct;
new returns BadReference("@email"). -/
theorem c2_counterexample :
    newProcessor ⟨[], [(PiiKind.freeform, ["@email".data])]⟩ =
      Except.error (BadRuleConfig.badReference "@email".data) := rfl

/-- C9: ValueInfo::derive keeps pii_kind exactly when it is databag and
clears it otherwise, and likewise for cap; so children of a databag-kinded
container derive the databag kind while children of any other kind derive
none. -/
theorem c9_derive_databag (info : ValueInfo) :
    ((info.derive).pii_kind = some PiiKind.databag ↔ info.pii_kind = some PiiKind.databag)
    ∧ (info.pii_kind ≠ some PiiKind.databag → (info.derive).pii_kind = none)
    ∧ ((info.derive).cap = some Cap.databag ↔ info.cap = some Cap.databag)
    ∧ (info.cap ≠ some Cap.databag → (info.derive).cap = none) := by
  obtain ⟨pk, cp⟩ := info
  rcases pk with - | k <;> rcases cp with - | c <;>
    first
      | exact ⟨by simp [ValueInfo.derive], fun _ => rfl, by simp [ValueInfo.derive],
          fun _ => rfl⟩
      | (cases k <;> cases c <;> exact ⟨by simp [ValueInfo.derive], by simp [ValueInfo.derive],
          by simp [ValueInfo.derive], by simp [ValueInfo.derive]⟩)
      | (cases k <;> exact ⟨by simp [ValueInfo.derive], by simp [ValueInfo.derive],
          by simp [ValueInfo.derive], by simp [ValueInfo.derive]⟩)
      | (cases c <;> exact ⟨by simp [ValueInfo.derive], by simp [ValueInfo.derive],
          by simp [ValueInfo.derive], by simp [ValueInfo.derive]⟩)

/-- C9 witness: a freeform parent with a summary cap derives children with no
pii kind and no cap. -/
theorem c9_derive_databag_witness :
    (ValueInfo.derive ⟨some PiiKind.freeform, some Cap.summary⟩).pii_kind = none
    ∧ (ValueInfo.derive ⟨some PiiKind.freeform, some Cap.summary⟩).cap = none :=
  ⟨(c9_derive_databag ⟨some PiiKind.freeform, some Cap.summary⟩).2.1 (by simp),
   (c9_derive_databag ⟨some PiiKind.freeform, some Cap.summary⟩).2.2.2 (by simp)⟩

/-- C10: for a rule without a configured redaction, the chunk rewrite appends
a zero-length redaction chunk carrying the rule's note, and whole-value
replacement removes the value while recording a remark with the rule's
note. -/
theorem c10_default_redaction (hv : HashValueFn) (rule : Rule)
    (h : rule.spec.redaction = none) (text : RStr) (output : List Chunk) (v : RValue)
    (m : Meta) :
    rule.insertReplacementChunks hv text output
      = output ++ [Chunk.redaction [] rule.createNote]
    ∧ rule.replaceValue hv ⟨some v, m⟩
      = ⟨none, { m with remarks := m.remarks ++ [Remark.new rule.createNote] }⟩ := by
  constructor
  · simp [Rule.insertReplacementChunks, h]
  · simp [Rule.replaceValue, h, Annotated.withRemovedValue]

/-- C10 witness at a concrete remove rule without redaction. -/
theorem c10_default_redaction_witness :
    (⟨['r'], ⟨RuleType.remove, none, some ['n']⟩⟩ : Rule).spec.redaction = none
    ∧ Rule.insertReplacementChunks (fun _ _ _ => [])
        ⟨['r'], ⟨RuleType.remove, none, some ['n']⟩⟩ ['a'] []
        = [] ++ [Chunk.redaction [] (Rule.createNote ⟨['r'], ⟨RuleType.remove, none, some ['n']⟩⟩)]
    ∧ Rule.replaceValue (fun _ _ _ => []) ⟨['r'], ⟨RuleType.remove, none, some ['n']⟩⟩
        ⟨some RValue.null, Meta.empty⟩
        = ⟨none, { Meta.empty with remarks := Meta.empty.remarks
            ++ [Remark.new (Rule.createNote ⟨['r'], ⟨RuleType.remove, none, some ['n']⟩⟩)] }⟩ :=
  ⟨rfl,
   (c10_default_redaction (fun _ _ _ => []) ⟨['r'], ⟨RuleType.remove, none, some ['n']⟩⟩ rfl
      ['a'] [] RValue.null Meta.empty).1,
   (c10_default_redaction (fun _ _ _ => []) ⟨['r'], ⟨RuleType.remove, none, some ['n']⟩⟩ rfl
      ['a'] [] RValue.null Meta.empty).2⟩

/-- C8: when the rule layer hands back a value whose variant does not project
back into the primitive type that was passed in, the primitive traversal arm
removes the value (None) and keeps the meta returned by the rule. -/
theorem c8_type_mismatch {α : Type} (hv : HashValueFn) (apps : List (PiiKind × List Rule))
    (wrap : α → RValue) (unwrap : RValue → Option α) (v : α) (meta : Meta) (kind : PiiKind)
    (cap : Option Cap) (out : Annotated RValue)
    (h1 : piiProcessValue hv apps ⟨some (wrap v), meta⟩ kind = out)
    (h2 : ∀ w, out.value = some w → unwrap w = none) :
    processPrimitive hv apps wrap unwrap ⟨some v, meta⟩ ⟨some kind, cap⟩ = ⟨none, out.meta⟩ := by
  simp only [processPrimitive, h1]
  rcases out with ⟨val, m⟩
  rcases val with - | w
  · rfl
  · simp [h2 w rfl]

/-- C8 witness: a remove rule with a string replacement applied to a u32
scalar of kind id; the string result is coerced to None and the remark-
carrying meta is kept. -/
theorem c8_type_mismatch_witness :
    processU32 (fun _ _ _ => [])
      [(PiiKind.id, [⟨['r'], ⟨RuleType.remove, some (Redaction.replace (RValue.str ['x'])),
        none⟩⟩])] ⟨some 7, Meta.empty⟩ ⟨some PiiKind.id, none⟩
      = ⟨none, ⟨[Remark.new ⟨['r'], none⟩], [], none, none⟩⟩ :=
  c8_type_mismatch (fun _ _ _ => [])
    [(PiiKind.id, [⟨['r'], ⟨RuleType.remove, some (Redaction.replace (RValue.str ['x'])),
      none⟩⟩])] RValue.u32 unwrapU32 7 Meta.empty PiiKind.id none
    ⟨some (RValue.str ['x']), ⟨[Remark.new ⟨['r'], none⟩], [], none, none⟩⟩ rfl
    (by rintro w hw; cases hw; rfl)

theorem get_range_index_eq_resolveSpec (idx : Option Int) (len default : Nat)
    (h : ∀ k, idx = some k → -2147483648 < k) :
    get_range_index idx len default = resolveSpec idx len default := by
  rcases idx with - | k
  · rfl
  · have hk2 := h k rfl
    simp only [get_range_index, resolveSpec]
    split_ifs with hk
    · have h1 : wrapI32 (k * -1) = -k := by
        unfold wrapI32
        omega
      have h2 : i32AsUsize (-k) = (-k).toNat := by
        unfold i32AsUsize
        omega
      rw [h1, h2]
      omega
    · rfl

/-- C3, corrected: for range bounds strictly above i32::MIN (where the
source's negation wraps), the Mask redaction masks the char at char index i
iff i lies in the half-open interval given by resolving the range bounds
against the UTF-8 byte length of the target substring (not its char count),
and a char listed in chars_to_ignore is never masked. -/
theorem c3_mask_byte_range (hv : HashValueFn) (mc : Char) (ignore : RStr)
    (range : Option Int × Option Int) (text : RStr) (note : Note) (output : List Chunk)
    (i : Nat) (c : Char) (h : text[i]? = some c)
    (hr1 : ∀ k, range.1 = some k → -2147483648 < k)
    (hr2 : ∀ k, range.2 = some k → -2147483648 < k) :
    Redaction.insertReplacementChunks hv (Redaction.mask mc ignore range) text note output
      = output ++ [Chunk.redaction (maskBuf mc ignore range text) note]
    ∧ (maskBuf mc ignore range text)[i]? = some (
        if resolveSpec range.1 (utf8Len text) 0 ≤ i
            ∧ i < resolveSpec range.2 (utf8Len text) (utf8Len text)
            ∧ ignore.contains c = false
        then mc else c)
    ∧ (ignore.contains c = true → (maskBuf mc ignore range text)[i]? = some c) := by
  have hget : (maskBuf mc ignore range text)[i]?
      = some (if in_range range i (utf8Len text) && !(ignore.contains c) then mc else c) := by
    simp only [maskBuf, List.getElem?_map, List.getElem?_enum, h, Option.map_some']
  have hin : in_range range i (utf8Len text)
      = (decide (resolveSpec range.1 (utf8Len text) 0 ≤ i)
          && decide (i < resolveSpec range.2 (utf8Len text) (utf8Len text))) := by
    simp [in_range, get_range_index_eq_resolveSpec range.1 (utf8Len text) 0 hr1,
      get_range_index_eq_resolveSpec range.2 (utf8Len text) (utf8Len text) hr2]
  refine ⟨rfl, ?_, ?_⟩
  · rw [hget, hin]
    by_cases h1 : resolveSpec range.1 (utf8Len text) 0 ≤ i <;>
      by_cases h2 : i < resolveSpec range.2 (utf8Len text) (utf8Len text) <;>
      cases h3 : ignore.contains c <;>
      simp [h1, h2, h3]
  · intro hc
    rw [hget]
    have hfalse : (in_range range i (utf8Len text) && !(List.contains ignore c)) = false := by
      rw [hc]
      simp
    rw [hfalse]
    simp

/-- C3, counterexample to the claim as stated: masking the two-char string
of two e-acute chars (2 chars, 4 bytes) with range (None, Some (-2)).
Resolving against the char count n = 2 gives the empty interval since
max(0, 2 - 2) = 0, so the claim predicts no char masked; the code resolves
against the byte length 4 and masks char 0. -/
theorem c3_counterexample :
    (maskBuf '*' [] (none, some (-2)) "éé".data)[0]? = some '*'
    ∧ resolveSpec (some (-2)) (("éé".data).length) (("éé".data).length) = 0
    ∧ ('*' : Char) ≠ 'é' := by
  refine ⟨?_, by decide, by decide⟩
  decide

theorem c3_mask_byte_range_witness :
    Redaction.insertReplacementChunks (fun _ _ _ => [])
        (Redaction.mask '*' ['b'] (some 1, some (-1))) ['a', 'b', 'c'] ⟨['r'], none⟩ []
      = [] ++ [Chunk.redaction (maskBuf '*' ['b'] (some 1, some (-1)) ['a', 'b', 'c'])
          ⟨['r'], none⟩]
    ∧ (maskBuf '*' ['b'] (some 1, some (-1)) ['a', 'b', 'c'])[1]? = some (
        if resolveSpec (some 1) (utf8Len ['a', 'b', 'c']) 0 ≤ 1
            ∧ 1 < resolveSpec (some (-1)) (utf8Len ['a', 'b', 'c']) (utf8Len ['a', 'b', 'c'])
            ∧ (['b'] : RStr).contains 'b' = false
        then '*' else 'b')
    ∧ ((['b'] : RStr).contains 'b' = true →
        (maskBuf '*' ['b'] (some 1, some (-1)) ['a', 'b', 'c'])[1]? = some 'b') :=
  c3_mask_byte_range (fun _ _ _ => []) '*' ['b'] (some 1, some (-1)) ['a', 'b', 'c']
    ⟨['r'], none⟩ [] 1 'b' rfl
    (by intro k hk; cases hk; omega) (by intro k hk; cases hk; omega)

/-- C4: a panic is reachable in Rule::apply_regex_to_chunks.  The abstract
captures below are exactly what the regex crate reports for the pattern
of two nested groups, outer group (ab) and inner group (a), on the search
string ab: group 0 and group 1 span bytes 0..2 and group 2 spans 0..1.
With replace_groups = [1, 2], after group 1 is replaced pos is 2, and the
slice search_string[2..0] taken for group 2 panics (start is after end);
the model returns none at that slice.  The same input through
Rule::process_chunks also reaches the panic. -/
theorem c4_panic_reachable :
    applyRegexToChunks (fun _ _ _ => [])
      ⟨['r'], ⟨RuleType.pattern
        ⟨fun _ => [⟨[some (0, 2), some (0, 2), some (0, 1)]⟩], fun _ => false⟩
        (some [1, 2]), none, none⟩⟩
      [Chunk.text ['a', 'b']] Meta.empty
      ⟨fun _ => [⟨[some (0, 2), some (0, 2), some (0, 1)]⟩], fun _ => false⟩
      (some [1, 2]) = none
    ∧ Rule.processChunks
      ⟨⟨fun _ => [], fun _ => false⟩, ⟨fun _ => [], fun _ => false⟩,
       ⟨fun _ => [], fun _ => false⟩, ⟨fun _ => [], fun _ => false⟩⟩
      (fun _ _ _ => [])
      ⟨['r'], ⟨RuleType.pattern
        ⟨fun _ => [⟨[some (0, 2), some (0, 2), some (0, 1)]⟩], fun _ => false⟩
        (some [1, 2]), none, none⟩⟩
      [Chunk.text ['a', 'b']] Meta.empty = none :=
  ⟨rfl, rfl⟩

theorem rangesOkFrom_mono :
    ∀ (l : List (Nat × Nat)) (p q : Nat), p ≤ q → rangesOkFrom q l = true →
      rangesOkFrom p l = true := by
  intro l p q hpq h
  cases l with
  | nil => rfl
  | cons r rest =>
    rcases r with ⟨f, t⟩
    simp only [rangesOkFrom, Bool.and_eq_true, decide_eq_true_eq] at h ⊢
    exact ⟨⟨by omega, h.1.2⟩, h.2⟩

theorem chunksToLoop_ranges :
    ∀ (chunks : List Chunk) (pos : Nat),
      (∀ t n, Chunk.redaction t n ∈ chunks → t ≠ []) →
      rangesOkFrom pos (rangedPairs (chunksToLoop chunks pos).2) = true := by
  intro chunks
  induction chunks with
  | nil => intro pos _; rfl
  | cons c cs ih =>
    intro pos h
    cases c with
    | text t =>
      have := ih (pos + utf8Len t) (fun t2 n2 hm => h t2 n2 (by simp [hm]))
      simp only [chunksToLoop]
      exact rangesOkFrom_mono _ pos (pos + utf8Len t) (by omega) this
    | redaction t n =>
      have hrec := ih (pos + utf8Len t) (fun t2 n2 hm => h t2 n2 (by simp [hm]))
      have ht : t ≠ [] := h t n (by simp)
      have := utf8Len_pos ht
      simp only [chunksToLoop, rangedPairs, List.filterMap_cons, Remark.withRange]
      simp only [rangedPairs] at hrec
      simp only [rangesOkFrom, Bool.and_eq_true, decide_eq_true_eq]
      exact ⟨⟨le_refl pos, by omega⟩, hrec⟩

theorem rangesOkFrom_remarksMonotone :
    ∀ (l : List (Nat × Nat)) (pos : Nat), rangesOkFrom pos l = true →
      remarksMonotone l = true := by
  intro l
  induction l with
  | nil => intro pos _; rfl
  | cons r rest ih =>
    intro pos h
    rcases r with ⟨f1, t1⟩
    cases rest with
    | nil => rfl
    | cons r2 rest2 =>
      rcases r2 with ⟨f2, t2⟩
      simp only [rangesOkFrom, Bool.and_eq_true, decide_eq_true_eq] at h
      obtain ⟨⟨hpf1, hft1⟩, ⟨htf2, hft2⟩, hrest⟩ := h
      simp only [remarksMonotone, Bool.and_eq_true, decide_eq_true_eq]
      refine ⟨⟨by omega, by omega⟩, ih t1 ?_⟩
      simp only [rangesOkFrom, Bool.and_eq_true, decide_eq_true_eq]
      exact ⟨⟨htf2, hft2⟩, hrest⟩

/-- C5, corrected: for chunk sequences whose redaction chunks all carry
non-empty text, the remark ranges produced by chunks_to_string are strictly
increasing in from and strictly non-overlapping.  (An empty redaction chunk,
as produced by a rule without a configured redaction, yields an empty range
that falsifies strictness; see the counterexample.) -/
theorem c5_remark_monotonicity (chunks : List Chunk) (meta : Meta)
    (h : ∀ t n, Chunk.redaction t n ∈ chunks → t ≠ []) :
    remarksMonotone (rangedPairs ((chunksToString chunks meta).2.remarks)) = true := by
  have := chunksToLoop_ranges chunks 0 h
  simp only [chunksToString]
  exact rangesOkFrom_remarksMonotone _ 0 this

/-- C5, counterexample to the claim as stated: two empty redaction chunks
both reconstruct the range (0, 0), which is neither strictly increasing in
from nor strictly non-overlapping. -/
theorem c5_counterexample :
    rangedPairs ((chunksToString [Chunk.redaction [] ⟨['a'], none⟩,
        Chunk.redaction [] ⟨['b'], none⟩] Meta.empty).2.remarks) = [(0, 0), (0, 0)]
    ∧ remarksMonotone [(0, 0), (0, 0)] = false := by
  constructor
  · rfl
  · rfl

/-- C5 witness: a run of non-empty redaction chunks separated by text. -/
theorem c5_remark_monotonicity_witness :
    remarksMonotone (rangedPairs ((chunksToString
      [Chunk.redaction ['x'] ⟨['a'], none⟩, Chunk.text ['y'],
       Chunk.redaction ['z'] ⟨['b'], none⟩] Meta.empty).2.remarks)) = true :=
  c5_remark_monotonicity
    [Chunk.redaction ['x'] ⟨['a'], none⟩, Chunk.text ['y'],
     Chunk.redaction ['z'] ⟨['b'], none⟩] Meta.empty
    (by
      intro t n hm
      simp only [List.mem_cons, List.not_mem_nil, or_false] at hm
      rcases hm with h1 | h2 | h3
      · cases h1; simp
      · cases h2
      · cases h3; simp)

theorem chunksLoop_roundtrip (s : RStr) :
    ∀ (rs : List Remark) (pos : Nat) (tail : RStr),
      sdrop s pos = some tail →
      chainValid s pos (rangedPairs rs) = true →
      chunksToLoop (chunksLoop s rs pos) pos
        = (tail, rs.filter (fun r => r.range.isSome)) := by
  intro rs
  induction rs with
  | nil =>
    intro pos tail hd _
    simp only [chunksLoop, chunksTrailing]
    by_cases hp : pos < utf8Len s
    · rw [if_pos hp, hd]
      simp [chunksToLoop]
    · rw [if_neg hp]
      have hlen := sdrop_utf8Len s pos tail hd
      have htail : tail = [] := utf8Len_eq_zero (by omega)
      simp [chunksToLoop, htail]
  | cons r rest ih =>
    intro pos tail hd hc
    rcases hr : r.range with - | ⟨f, t⟩
    · have hfilter : (r :: rest).filter (fun r2 => r2.range.isSome)
          = rest.filter (fun r2 => r2.range.isSome) := by
        simp [List.filter_cons, hr]
      have hrp : rangedPairs (r :: rest) = rangedPairs rest := by
        simp [rangedPairs, List.filterMap_cons, hr]
      rw [hrp] at hc
      simp only [chunksLoop, hr]
      rw [ih pos tail hd hc, hfilter]
    · have hrp : rangedPairs (r :: rest) = (f, t) :: rangedPairs rest := by
        simp [rangedPairs, List.filterMap_cons, hr]
      rw [hrp] at hc
      simp only [chainValid, Bool.and_eq_true, decide_eq_true_eq] at hc
      obtain ⟨⟨⟨hpf, hg1⟩, hg2⟩, hrest⟩ := hc
      rcases Option.isSome_iff_exists.mp hg1 with ⟨gap, hgap⟩
      rcases Option.isSome_iff_exists.mp hg2 with ⟨piece, hpiece⟩
      obtain ⟨-, hlgap, y, hdy, hu⟩ := sget_decompose hd hgap
      obtain ⟨hft, hlpiece, y2, hdy2, hy⟩ := sget_decompose hdy hpiece
      have hrec := ih t y2 hdy2 hrest
      have hfilter : (r :: rest).filter (fun r2 => r2.range.isSome)
          = r :: rest.filter (fun r2 => r2.range.isSome) := by
        simp [List.filter_cons, hr]
      have hrrem : Remark.withRange r.note (f, t) = r := by
        rcases r with ⟨n, rng⟩
        simp only [Remark.range] at hr
        rw [hr]
        rfl
      have key : chunksToLoop (Chunk.redaction piece r.note :: chunksLoop s rest t) f
          = (piece ++ y2, r :: rest.filter (fun r2 => r2.range.isSome)) := by
        simp only [chunksToLoop]
        rw [show f + utf8Len piece = t from by omega]
        rw [hrec, hrrem]
      by_cases hposf : pos < f
      · simp only [chunksLoop, hr, hgap, hpiece, if_pos hposf]
        simp only [chunksToLoop]
        rw [show pos + utf8Len gap = f from by omega]
        rw [show f + utf8Len piece = t from by omega, hrec, hrrem, hfilter]
        simp [hu, hy]
      · have hpe : pos = f := by omega
        subst hpe
        have hgap0 : gap = [] := utf8Len_eq_zero (by omega)
        simp only [chunksLoop, hr, hpiece, if_neg hposf]
        rw [key, hfilter]
        simp [hu, hy, hgap0]

/-- C1, corrected: the chunk round trip restores the string and replaces the
remarks with exactly the ranged remarks, provided the ranged remark ranges
form a valid chain: ordered, non-overlapping and in-bounds on char
boundaries.  In-bounds alone is not enough; see the counterexample. -/
theorem c1_chunk_roundtrip (s : RStr) (m : Meta)
    (h : chainValid s 0 (rangedPairs m.remarks) = true) :
    chunksToString (chunksFromStr s m) m
      = (s, { m with remarks := m.remarks.filter (fun r => r.range.isSome) }) := by
  have h0 : sdrop s 0 = some s := by cases s <;> rfl
  have := chunksLoop_roundtrip s m.remarks 0 s h0 h
  simp only [chunksToString, chunksFromStr, this]

/-- C1, counterexample to the claim as stated: both ranges (0,2) and (0,1)
are in-bounds for the two-byte string ab, but because they overlap the
reconstructed string is abab, not ab. -/
theorem c1_counterexample :
    ((sget ['a', 'b'] 0 2).isSome = true ∧ (sget ['a', 'b'] 0 1).isSome = true)
    ∧ (chunksToString (chunksFromStr ['a', 'b']
        ⟨[⟨⟨['r'], none⟩, some (0, 2)⟩, ⟨⟨['q'], none⟩, some (0, 1)⟩], [], none, none⟩)
        ⟨[⟨⟨['r'], none⟩, some (0, 2)⟩, ⟨⟨['q'], none⟩, some (0, 1)⟩], [], none, none⟩).1
      ≠ ['a', 'b'] := by
  refine ⟨⟨by decide, by decide⟩, ?_⟩
  decide

/-- C1 witness: a string with one ranged and one rangeless remark round
trips; the rangeless remark is dropped. -/
theorem c1_chunk_roundtrip_witness :
    chainValid ['H', 'e', 'y'] 0
      (rangedPairs [⟨⟨['r'], none⟩, some (1, 2)⟩, ⟨⟨['q'], none⟩, none⟩]) = true
    ∧ chunksToString (chunksFromStr ['H', 'e', 'y']
        ⟨[⟨⟨['r'], none⟩, some (1, 2)⟩, ⟨⟨['q'], none⟩, none⟩], [], none, none⟩)
        ⟨[⟨⟨['r'], none⟩, some (1, 2)⟩, ⟨⟨['q'], none⟩, none⟩], [], none, none⟩
      = (['H', 'e', 'y'], ⟨[⟨⟨['r'], none⟩, some (1, 2)⟩], [], none, none⟩) :=
  ⟨by decide,
   c1_chunk_roundtrip ['H', 'e', 'y']
     ⟨[⟨⟨['r'], none⟩, some (1, 2)⟩, ⟨⟨['q'], none⟩, none⟩], [], none, none⟩ (by decide)⟩

theorem applyRegex_meta (hv : HashValueFn) (rule : Rule) (chunks : List Chunk) (meta : Meta)
    (regex : Regex) (rg : Option (List Nat)) (p : List Chunk × Meta)
    (h : applyRegexToChunks hv rule chunks meta regex rg = some p) : p.2 = meta := by
  simp only [applyRegexToChunks] at h
  split at h
  · cases h
  · split at h
    · cases h
    · split at h
      · cases h
      · cases h; rfl

theorem processChunks_ok_meta (dets : Detectors) (hv : HashValueFn) (r : Rule)
    (cs : List Chunk) (m : Meta) (p : List Chunk × Meta)
    (h : r.processChunks dets hv cs m = some (Except.ok p)) : p.2 = m := by
  cases hty : r.spec.ty with
  | pattern re rg =>
    simp only [Rule.processChunks, hty] at h
    rcases Option.map_eq_some'.mp h with ⟨a, ha, hae⟩
    cases hae
    exact applyRegex_meta hv r cs m re rg p ha
  | email =>
    simp only [Rule.processChunks, hty] at h
    rcases Option.map_eq_some'.mp h with ⟨a, ha, hae⟩
    cases hae
    exact applyRegex_meta hv r cs m dets.email none p ha
  | ipv4 =>
    simp only [Rule.processChunks, hty] at h
    rcases Option.map_eq_some'.mp h with ⟨a, ha, hae⟩
    cases hae
    exact applyRegex_meta hv r cs m dets.ipv4 none p ha
  | ipv6 =>
    simp only [Rule.processChunks, hty] at h
    rcases Option.map_eq_some'.mp h with ⟨a, ha, hae⟩
    cases hae
    exact applyRegex_meta hv r cs m dets.ipv6 none p ha
  | creditcard =>
    simp only [Rule.processChunks, hty] at h
    rcases Option.map_eq_some'.mp h with ⟨a, ha, hae⟩
    cases hae
    exact applyRegex_meta hv r cs m dets.creditcard none p ha
  | ip =>
    simp only [Rule.processChunks, hty] at h
    split at h
    · cases h
    · rename_i c2 m2 h1
      split at h
      · cases h
      · rename_i c3 m3 h2
        cases h
        have e1 := applyRegex_meta hv r cs m dets.ipv4 none (c2, m2) h1
        have e2 := applyRegex_meta hv r c2 m2 dets.ipv6 none (c3, m3) h2
        simp only at e1 e2
        rw [e2, e1]
  | remove =>
    simp only [Rule.processChunks, hty] at h
    cases h
  | removePair kp =>
    simp only [Rule.processChunks, hty] at h
    cases h

theorem processChunks_error_eq (dets : Detectors) (hv : HashValueFn) (r : Rule)
    (cs : List Chunk) (m : Meta) (p : List Chunk × Meta)
    (h : r.processChunks dets hv cs m = some (Except.error p)) : p = (cs, m) := by
  cases hty : r.spec.ty with
  | pattern re rg =>
    simp only [Rule.processChunks, hty] at h
    rcases Option.map_eq_some'.mp h with ⟨a, _, hae⟩
    cases hae
  | email =>
    simp only [Rule.processChunks, hty] at h
    rcases Option.map_eq_some'.mp h with ⟨a, _, hae⟩
    cases hae
  | ipv4 =>
    simp only [Rule.processChunks, hty] at h
    rcases Option.map_eq_some'.mp h with ⟨a, _, hae⟩
    cases hae
  | ipv6 =>
    simp only [Rule.processChunks, hty] at h
    rcases Option.map_eq_some'.mp h with ⟨a, _, hae⟩
    cases hae
  | creditcard =>
    simp only [Rule.processChunks, hty] at h
    rcases Option.map_eq_some'.mp h with ⟨a, _, hae⟩
    cases hae
  | ip =>
    simp only [Rule.processChunks, hty] at h
    split at h
    · cases h
    · split at h
      · cases h
      · cases h
  | remove =>
    simp only [Rule.processChunks, hty] at h
    cases h
    rfl
  | removePair kp =>
    simp only [Rule.processChunks, hty] at h
    cases h
    rfl

theorem piiLoop_meta (dets : Detectors) (hv : HashValueFn) :
    ∀ (rules : List Rule) (rv : List Chunk × Meta) (b : Bool) (res : Bool × (List Chunk × Meta)),
      piiProcessChunksLoop dets hv rules rv b = some res → res.2.2 = rv.2 := by
  intro rules
  induction rules with
  | nil =>
    intro rv b res h
    cases h
    rfl
  | cons r rs ih =>
    intro rv b res h
    simp only [piiProcessChunksLoop] at h
    cases hpc : r.processChunks dets hv rv.1 rv.2 with
    | none => rw [hpc] at h; cases h
    | some e =>
      rw [hpc] at h
      cases e with
      | ok val =>
        have h1 := ih val true res h
        have h2 := processChunks_ok_meta dets hv r rv.1 rv.2 val hpc
        rw [h1, h2]
      | error val =>
        have h1 := ih val b res h
        have h2 := processChunks_error_eq dets hv r rv.1 rv.2 val hpc
        rw [h1, h2]

theorem piiLoop_allerr (dets : Detectors) (hv : HashValueFn) :
    ∀ (rules : List Rule),
      (∀ r ∈ rules, ∀ (cs : List Chunk) (mm : Meta), ∃ p,
        r.processChunks dets hv cs mm = some (Except.error p)) →
      ∀ (rv : List Chunk × Meta) (b : Bool),
        piiProcessChunksLoop dets hv rules rv b = some (b, rv) := by
  intro rules
  induction rules with
  | nil => intro _ rv b; rfl
  | cons r rs ih =>
    intro h rv b
    rcases h r (by simp) rv.1 rv.2 with ⟨p, hp⟩
    have hpe := processChunks_error_eq dets hv r rv.1 rv.2 p hp
    simp only [piiProcessChunksLoop, hp, hpe]
    exact ih (fun r2 hr2 => h r2 (by simp [hr2])) rv b

theorem processValue_error_eq (hv : HashValueFn) (r : Rule) (v : Annotated RValue)
    (kind : PiiKind) (v2 : Annotated RValue)
    (h : r.processValue hv v kind = Except.error v2) : v2 = v := by
  cases hty : r.spec.ty with
  | pattern re rg => simp only [Rule.processValue, hty] at h; cases h; rfl
  | email => simp only [Rule.processValue, hty] at h; cases h; rfl
  | ipv4 => simp only [Rule.processValue, hty] at h; cases h; rfl
  | ipv6 => simp only [Rule.processValue, hty] at h; cases h; rfl
  | ip => simp only [Rule.processValue, hty] at h; cases h; rfl
  | creditcard => simp only [Rule.processValue, hty] at h; cases h; rfl
  | remove => simp only [Rule.processValue, hty] at h; cases h
  | removePair kp =>
    simp only [Rule.processValue, hty] at h
    split at h
    · split at h
      · cases h
      · cases h; rfl
    · cases h; rfl

theorem piiValueLoop_allerr (hv : HashValueFn) (kind : PiiKind) :
    ∀ (rules : List Rule),
      (∀ r ∈ rules, ∀ (v : Annotated RValue), ∃ v2,
        r.processValue hv v kind = Except.error v2) →
      ∀ (v : Annotated RValue), piiProcessValueLoop hv rules v kind = v := by
  intro rules
  induction rules with
  | nil => intro _ v; rfl
  | cons r rs ih =>
    intro h v
    rcases h r (by simp) v with ⟨v2, hv2⟩
    have hve := processValue_error_eq hv r v kind v2 hv2
    simp only [piiProcessValueLoop, hv2, hve]
    exact ih (fun r2 hr2 => h r2 (by simp [hr2])) v

/-- C7: when every applicable rule fails process_chunks (Err) and every
applicable rule also fails process_value (Err), the string value and its
meta come out of the traversal unchanged, and the result is an ordinary
value, not an error. -/
theorem c7_rule_failures_leave_value (dets : Detectors) (hv : HashValueFn)
    (apps : List (PiiKind × List Rule)) (s : RStr) (m : Meta) (kind : PiiKind)
    (cap : Option Cap)
    (h1 : ∀ r ∈ rulesFor apps kind, ∀ (cs : List Chunk) (mm : Meta), ∃ p,
        r.processChunks dets hv cs mm = some (Except.error p))
    (h2 : ∀ r ∈ rulesFor apps kind, ∀ (v : Annotated RValue), ∃ v2,
        r.processValue hv v kind = Except.error v2) :
    processString dets hv apps ⟨some s, m⟩ ⟨some kind, cap⟩ = some ⟨some s, m⟩ := by
  have hpc : piiProcessChunks dets hv apps (chunksFromStr s m) m kind
      = some (Except.error ((chunksFromStr s m), m)) := by
    simp only [piiProcessChunks]
    cases hl : List.lookup kind apps with
    | none => rfl
    | some rules =>
      have hrf : rulesFor apps kind = rules := by simp [rulesFor, hl]
      rw [hrf] at h1
      simp only []
      rw [piiLoop_allerr dets hv rules h1 (chunksFromStr s m, m) false]
      rfl
  have hpv : piiProcessValue hv apps ⟨some (RValue.str s), m⟩ kind
      = ⟨some (RValue.str s), m⟩ := by
    simp only [piiProcessValue]
    cases hl : List.lookup kind apps with
    | none => rfl
    | some rules =>
      have hrf : rulesFor apps kind = rules := by simp [rulesFor, hl]
      rw [hrf] at h2
      simp only []
      exact piiValueLoop_allerr hv kind rules h2 ⟨some (RValue.str s), m⟩
  simp only [processString, hpc, hpv]
  simp

/-- C7 witness: a removePair rule whose key pattern matches nothing, applied
to a path-less ip-kinded string: both stages fail and the value is kept. -/
theorem c7_rule_failures_leave_value_witness :
    processString
      ⟨⟨fun _ => [], fun _ => false⟩, ⟨fun _ => [], fun _ => false⟩,
       ⟨fun _ => [], fun _ => false⟩, ⟨fun _ => [], fun _ => false⟩⟩
      (fun _ _ _ => [])
      [(PiiKind.ip, [⟨['k'], ⟨RuleType.removePair ⟨fun _ => [], fun _ => false⟩,
        none, none⟩⟩])]
      ⟨some ['a'], Meta.empty⟩ ⟨some PiiKind.ip, none⟩ = some ⟨some ['a'], Meta.empty⟩ :=
  c7_rule_failures_leave_value
    ⟨⟨fun _ => [], fun _ => false⟩, ⟨fun _ => [], fun _ => false⟩,
     ⟨fun _ => [], fun _ => false⟩, ⟨fun _ => [], fun _ => false⟩⟩
    (fun _ _ _ => [])
    [(PiiKind.ip, [⟨['k'],
      ⟨RuleType.removePair ⟨fun _ => [], fun _ => false⟩, none, none⟩⟩])]
    ['a'] Meta.empty PiiKind.ip none
    (by
      intro r hr cs mm
      replace hr : r ∈ [(⟨['k'],
        ⟨RuleType.removePair ⟨fun _ => [], fun _ => false⟩, none, none⟩⟩ : Rule)] := hr
      rcases List.mem_singleton.mp hr with rfl
      exact ⟨(cs, mm), rfl⟩)
    (by
      intro r hr v
      replace hr : r ∈ [(⟨['k'],
        ⟨RuleType.removePair ⟨fun _ => [], fun _ => false⟩, none, none⟩⟩ : Rule)] := hr
      rcases List.mem_singleton.mp hr with rfl
      refine ⟨v, ?_⟩
      simp only [Rule.processValue]
      cases hp : v.meta.path with
      | none => rfl
      | some p => rfl)

theorem setRV_ol (hv : HashValueFn) (red : Redaction) (note : Note) (v : RValue) (m : Meta) :
    ((red.setReplacementValue hv ⟨some v, m⟩ note).meta.original_length = m.original_length)
    ∨ (m.original_length = none
       ∧ ∃ s2, (red.setReplacementValue hv ⟨some v, m⟩ note).value = some (RValue.str s2)
         ∧ (red.setReplacementValue hv ⟨some v, m⟩ note).meta.original_length
             = some (utf8Len v.repr % 4294967296)
         ∧ utf8Len s2 ≠ utf8Len v.repr) := by
  cases red with
  | replace nv => left; rfl
  | mask mc ig rg =>
    simp only [Redaction.setReplacementValue]
    split_ifs with hcond
    · right
      exact ⟨hcond.2, _, rfl, rfl, hcond.1⟩
    · left; rfl
  | hash alg key =>
    simp only [Redaction.setReplacementValue]
    split_ifs with hcond
    · right
      exact ⟨hcond.2, _, rfl, rfl, hcond.1⟩
    · left; rfl

theorem replaceValue_ol (hv : HashValueFn) (rule : Rule) (v : RValue) (m : Meta) :
    ((rule.replaceValue hv ⟨some v, m⟩).meta.original_length = m.original_length)
    ∨ (m.original_length = none
       ∧ ∃ s2, (rule.replaceValue hv ⟨some v, m⟩).value = some (RValue.str s2)
         ∧ (rule.replaceValue hv ⟨some v, m⟩).meta.original_length
             = some (utf8Len v.repr % 4294967296)
         ∧ utf8Len s2 ≠ utf8Len v.repr) := by
  cases hred : rule.spec.redaction with
  | none =>
    simp only [Rule.replaceValue, hred]
    left
    rfl
  | some red =>
    simp only [Rule.replaceValue, hred]
    exact setRV_ol hv red rule.createNote v m

theorem processValue_ok_ol (hv : HashValueFn) (r : Rule) (v : RValue) (m : Meta)
    (kind : PiiKind) (a : Annotated RValue)
    (h : r.processValue hv ⟨some v, m⟩ kind = Except.ok a) :
    (a.meta.original_length = m.original_length)
    ∨ (m.original_length = none
       ∧ ∃ s2, a.value = some (RValue.str s2)
         ∧ a.meta.original_length = some (utf8Len v.repr % 4294967296)
         ∧ utf8Len s2 ≠ utf8Len v.repr) := by
  cases hty : r.spec.ty with
  | pattern re rg => simp only [Rule.processValue, hty] at h; cases h
  | email => simp only [Rule.processValue, hty] at h; cases h
  | ipv4 => simp only [Rule.processValue, hty] at h; cases h
  | ipv6 => simp only [Rule.processValue, hty] at h; cases h
  | ip => simp only [Rule.processValue, hty] at h; cases h
  | creditcard => simp only [Rule.processValue, hty] at h; cases h
  | remove =>
    simp only [Rule.processValue, hty] at h
    cases h
    exact replaceValue_ol hv r v m
  | removePair kp =>
    simp only [Rule.processValue, hty] at h
    split at h
    · split at h
      · cases h
        exact replaceValue_ol hv r v m
      · cases h
    · cases h

theorem piiValueLoop_ol (hv : HashValueFn) (kind : PiiKind) :
    ∀ (rules : List Rule) (s : RStr) (m : Meta),
      ((piiProcessValueLoop hv rules ⟨some (RValue.str s), m⟩ kind).meta.original_length
          = m.original_length)
      ∨ (m.original_length = none
         ∧ ∃ s2,
           (piiProcessValueLoop hv rules ⟨some (RValue.str s), m⟩ kind).value
             = some (RValue.str s2)
           ∧ (piiProcessValueLoop hv rules ⟨some (RValue.str s), m⟩ kind).meta.original_length
             = some (utf8Len s % 4294967296)
           ∧ utf8Len s2 ≠ utf8Len s) := by
  intro rules
  induction rules with
  | nil => intro s m; left; rfl
  | cons r rs ih =>
    intro s m
    simp only [piiProcessValueLoop]
    cases hpv : r.processValue hv ⟨some (RValue.str s), m⟩ kind with
    | ok a =>
      simp only []
      exact processValue_ok_ol hv r (RValue.str s) m kind a hpv
    | error v2 =>
      have hve := processValue_error_eq hv r ⟨some (RValue.str s), m⟩ kind v2 hpv
      simp only [hve]
      exact ih s m

theorem piiProcessValue_ol (hv : HashValueFn) (apps : List (PiiKind × List Rule))
    (kind : PiiKind) (s : RStr) (m : Meta) :
    ((piiProcessValue hv apps ⟨some (RValue.str s), m⟩ kind).meta.original_length
        = m.original_length)
    ∨ (m.original_length = none
       ∧ ∃ s2,
         (piiProcessValue hv apps ⟨some (RValue.str s), m⟩ kind).value
           = some (RValue.str s2)
         ∧ (piiProcessValue hv apps ⟨some (RValue.str s), m⟩ kind).meta.original_length
           = some (utf8Len s % 4294967296)
         ∧ utf8Len s2 ≠ utf8Len s) := by
  simp only [piiProcessValue]
  cases hl : List.lookup kind apps with
  | none => left; rfl
  | some rules =>
    simp only []
    exact piiValueLoop_ol hv kind rules s m

theorem piiProcessChunks_meta (dets : Detectors) (hv : HashValueFn)
    (apps : List (PiiKind × List Rule)) (cs : List Chunk) (m : Meta) (kind : PiiKind)
    (e : Except (List Chunk × Meta) (List Chunk × Meta))
    (h : piiProcessChunks dets hv apps cs m kind = some e) :
    ∀ p, (e = Except.ok p ∨ e = Except.error p) → p.2 = m := by
  simp only [piiProcessChunks] at h
  cases hl : List.lookup kind apps with
  | none =>
    rw [hl] at h
    simp only [] at h
    cases h
    rintro p (hp | hp)
    · cases hp
    · cases hp; rfl
  | some rules =>
    rw [hl] at h
    simp only [] at h
    cases hloop : piiProcessChunksLoop dets hv rules (cs, m) false with
    | none => rw [hloop] at h; cases h
    | some br =>
      rw [hloop] at h
      have hm := piiLoop_meta dets hv rules (cs, m) false br hloop
      rcases br with ⟨replaced, rv⟩
      simp only [] at h
      cases replaced with
      | false =>
        simp only [Bool.false_eq_true, if_false] at h
        cases h
        rintro p (hp | hp)
        · cases hp
        · cases hp; exact hm
      | true =>
        simp only [if_true] at h
        cases h
        rintro p (hp | hp)
        · cases hp; exact hm
        · cases hp

/-- C6, corrected: through process_string, on both the chunk path and the
value-fallback path, a string result whose byte length differs from the
input while the incoming meta had no original_length gets original_length
set to the input byte length reduced mod 2^32 (the field is stored as u32;
below 4 GiB this is the byte length itself); in every other case (equal
lengths, already-set original_length, or a removed value) original_length
is unchanged. -/
theorem c6_original_length (dets : Detectors) (hv : HashValueFn)
    (apps : List (PiiKind × List Rule)) (s : RStr) (m : Meta) (kind : PiiKind)
    (cap : Option Cap) (out : Annotated RStr)
    (h : processString dets hv apps ⟨some s, m⟩ ⟨some kind, cap⟩ = some out) :
    (∀ s2, out.value = some s2 → utf8Len s2 ≠ utf8Len s → m.original_length = none →
        out.meta.original_length = some (utf8Len s % 4294967296))
    ∧ (∀ s2, out.value = some s2 → utf8Len s2 = utf8Len s →
        out.meta.original_length = m.original_length)
    ∧ (∀ x, m.original_length = some x → out.meta.original_length = some x)
    ∧ (out.value = none → out.meta.original_length = m.original_length) := by
  simp only [processString] at h
  cases hpc : piiProcessChunks dets hv apps (chunksFromStr s m) m kind with
  | none => rw [hpc] at h; cases h
  | some e =>
    rw [hpc] at h
    have hmeta := piiProcessChunks_meta dets hv apps (chunksFromStr s m) m kind e hpc
    cases e with
    | ok pr =>
      rcases pr with ⟨cs2, meta2⟩
      have hm2 : meta2 = m := hmeta (cs2, meta2) (Or.inl rfl)
      rw [hm2] at h
      simp only [] at h
      have hout := Option.some.inj h
      subst hout
      have hkeep : (chunksToString cs2 m).2.original_length = m.original_length := rfl
      refine ⟨?_, ?_, ?_, ?_⟩
      · intro s2 hs2 hne hnone
        have hs2e : (chunksToString cs2 m).1 = s2 := Option.some.inj hs2
        rw [if_pos ⟨by rw [hs2e]; exact hne, by rw [hkeep]; exact hnone⟩]
      · intro s2 hs2 heq
        have hs2e : (chunksToString cs2 m).1 = s2 := Option.some.inj hs2
        rw [if_neg (by rw [hs2e, heq]; intro hc; exact hc.1 rfl)]
        exact hkeep
      · intro x hx
        rw [if_neg (by rw [hkeep, hx]; intro hc; cases hc.2)]
        rw [hkeep, hx]
      · intro hnone
        cases hnone
    | error pr =>
      rcases pr with ⟨csE, metaE⟩
      have hmE : metaE = m := hmeta (csE, metaE) (Or.inr rfl)
      rw [hmE] at h
      simp only [] at h
      have hol := piiProcessValue_ol hv apps kind s m
      rcases hpvr : piiProcessValue hv apps ⟨some (RValue.str s), m⟩ kind with ⟨av, m4⟩
      rw [hpvr] at h hol
      rcases av with - | w
      · simp only [] at h hol
        have hout := Option.some.inj h
        subst hout
        have holx : m4.original_length = m.original_length := by
          rcases hol with h1 | ⟨-, s2, hs2, -⟩
          · exact h1
          · cases hs2
        exact ⟨fun s2 hs2 => (by cases hs2), fun s2 hs2 => (by cases hs2),
          fun x hx => (by rw [holx, hx]), fun _ => holx⟩
      · cases w with
        | str s2 =>
          simp only [] at h hol
          have hout := Option.some.inj h
          subst hout
          refine ⟨?_, ?_, ?_, ?_⟩
          · intro s3 hs3 hne hnone
            have hs3e : s2 = s3 := Option.some.inj hs3
            subst hs3e
            rcases hol with h1 | ⟨-, s4, hs4, holeq, -⟩
            · rw [if_pos ⟨hne, by rw [h1]; exact hnone⟩]
            · have : s4 = s2 := by cases Option.some.inj hs4; rfl
              subst this
              rw [if_neg (by rw [holeq]; intro hc; cases hc.2)]
              exact holeq
          · intro s3 hs3 heq
            have hs3e : s2 = s3 := Option.some.inj hs3
            subst hs3e
            rcases hol with h1 | ⟨-, s4, hs4, -, hlen⟩
            · rw [if_neg (by rw [heq]; intro hc; exact hc.1 rfl)]
              exact h1
            · have : s4 = s2 := by cases Option.some.inj hs4; rfl
              subst this
              exact absurd heq hlen
          · intro x hx
            rcases hol with h1 | ⟨hnone2, -⟩
            · rw [if_neg (by rw [h1, hx]; intro hc; cases hc.2)]
              rw [h1, hx]
            · rw [hnone2] at hx
              cases hx
          · intro hnone
            cases hnone
        | null =>
          simp only [] at h hol
          have hout := Option.some.inj h
          subst hout
          have holx : m4.original_length = m.original_length := by
            rcases hol with h1 | ⟨-, s2, hs2, -⟩
            · exact h1
            · cases Option.some.inj hs2
          exact ⟨fun s2 hs2 => (by cases hs2), fun s2 hs2 => (by cases hs2),
            fun x hx => (by rw [holx, hx]), fun _ => holx⟩
        | bool b =>
          simp only [] at h hol
          have hout := Option.some.inj h
          subst hout
          have holx : m4.original_length = m.original_length := by
            rcases hol with h1 | ⟨-, s2, hs2, -⟩
            · exact h1
            · cases Option.some.inj hs2
          exact ⟨fun s2 hs2 => (by cases hs2), fun s2 hs2 => (by cases hs2),
            fun x hx => (by rw [holx, hx]), fun _ => holx⟩
        | u32 n =>
          simp only [] at h hol
          have hout := Option.some.inj h
          subst hout
          have holx : m4.original_length = m.original_length := by
            rcases hol with h1 | ⟨-, s2, hs2, -⟩
            · exact h1
            · cases Option.some.inj hs2
          exact ⟨fun s2 hs2 => (by cases hs2), fun s2 hs2 => (by cases hs2),
            fun x hx => (by rw [holx, hx]), fun _ => holx⟩
        | i32 n =>
          simp only [] at h hol
          have hout := Option.some.inj h
          subst hout
          have holx : m4.original_length = m.original_length := by
            rcases hol with h1 | ⟨-, s2, hs2, -⟩
            · exact h1
            · cases Option.some.inj hs2
          exact ⟨fun s2 hs2 => (by cases hs2), fun s2 hs2 => (by cases hs2),
            fun x hx => (by rw [holx, hx]), fun _ => holx⟩
        | u64 n =>
          simp only [] at h hol
          have hout := Option.some.inj h
          subst hout
          have holx : m4.original_length = m.original_length := by
            rcases hol with h1 | ⟨-, s2, hs2, -⟩
            · exact h1
            · cases Option.some.inj hs2
          exact ⟨fun s2 hs2 => (by cases hs2), fun s2 hs2 => (by cases hs2),
            fun x hx => (by rw [holx, hx]), fun _ => holx⟩
        | i64 n =>
          simp only [] at h hol
          have hout := Option.some.inj h
          subst hout
          have holx : m4.original_length = m.original_length := by
            rcases hol with h1 | ⟨-, s2, hs2, -⟩
            · exact h1
            · cases Option.some.inj hs2
          exact ⟨fun s2 hs2 => (by cases hs2), fun s2 hs2 => (by cases hs2),
            fun x hx => (by rw [holx, hx]), fun _ => holx⟩

/-- C6 witness: a remove rule with a two-char replacement on a one-char
string takes the fallback path, and original_length is recorded as the
pre-processing byte length 1. -/
theorem c6_original_length_witness :
    processString
      ⟨⟨fun _ => [], fun _ => false⟩, ⟨fun _ => [], fun _ => false⟩,
       ⟨fun _ => [], fun _ => false⟩, ⟨fun _ => [], fun _ => false⟩⟩
      (fun _ _ _ => [])
      [(PiiKind.name, [⟨['w'], ⟨RuleType.remove,
        some (Redaction.replace (RValue.str ['x', 'y'])), none⟩⟩])]
      ⟨some ['a'], Meta.empty⟩ ⟨some PiiKind.name, none⟩
      = some ⟨some ['x', 'y'], ⟨[Remark.new ⟨['w'], none⟩], [], some 1, none⟩⟩
    ∧ (⟨[Remark.new ⟨['w'], none⟩], [], some 1, none⟩ : Meta).original_length
      = some (utf8Len ['a'] % 4294967296) :=
  ⟨rfl,
   (c6_original_length
     ⟨⟨fun _ => [], fun _ => false⟩, ⟨fun _ => [], fun _ => false⟩,
      ⟨fun _ => [], fun _ => false⟩, ⟨fun _ => [], fun _ => false⟩⟩
     (fun _ _ _ => [])
     [(PiiKind.name, [⟨['w'], ⟨RuleType.remove,
       some (Redaction.replace (RValue.str ['x', 'y'])), none⟩⟩])]
     ['a'] Meta.empty PiiKind.name none
     ⟨some ['x', 'y'], ⟨[Remark.new ⟨['w'], none⟩], [], some 1, none⟩⟩ rfl).1
     ['x', 'y'] rfl (by decide) rfl⟩

/-- C2 witness: a config whose single application id is a user rule
constructs, and a config referencing an absent id yields BadReference with
that id listed in an application and missing from the user rules. -/
theorem c2_construction_user_rules_only_witness :
    (∃ apps, newProcessor ⟨[(['r'], ⟨RuleType.remove, none, none⟩)],
        [(PiiKind.ip, [['r']])]⟩ = Except.ok apps)
    ∧ (∃ p ∈ ([(PiiKind.freeform, [['e']])] :
          List (PiiKind × List RStr)), ['e'] ∈ p.2)
    ∧ List.lookup ['e'] ([] : List (RStr × RuleSpec)) = none :=
  ⟨(c2_construction_user_rules_only
      ⟨[(['r'], ⟨RuleType.remove, none, none⟩)], [(PiiKind.ip, [['r']])]⟩).1.mpr
    (by
      intro p hp id hid
      replace hp : p ∈ [((PiiKind.ip, [['r']]) : PiiKind × List RStr)] := hp
      rcases List.mem_singleton.mp hp with rfl
      replace hid : id ∈ [(['r'] : RStr)] := hid
      rcases List.mem_singleton.mp hid with rfl
      rfl),
   ((c2_construction_user_rules_only ⟨[], [(PiiKind.freeform, [['e']])]⟩).2 ['e'] rfl).1,
   ((c2_construction_user_rules_only ⟨[], [(PiiKind.freeform, [['e']])]⟩).2 ['e'] rfl).2⟩

theorem utf8Len_replicate (n : Nat) (c : Char) :
    utf8Len (List.replicate n c) = n * charWidth c := by
  induction n with
  | zero => simp [utf8Len]
  | succ k ih =>
    simp only [List.replicate, utf8Len, ih]
    ring

/-- C6, counterexample to the claim as stated: original_length is stored as
u32 (processor.rs line 224 and 233: original_length as u32), so on a string
of 2^32 bytes whose length changes, the recorded original_length is 0, not
the pre-processing byte length 2^32. -/
theorem c6_counterexample :
    utf8Len (List.replicate 4294967296 'a') = 4294967296
    ∧ Meta.empty.original_length = none
    ∧ processString
        ⟨⟨fun _ => [], fun _ => false⟩, ⟨fun _ => [], fun _ => false⟩,
         ⟨fun _ => [], fun _ => false⟩, ⟨fun _ => [], fun _ => false⟩⟩
        (fun _ _ _ => [])
        [(PiiKind.name, [⟨['w'], ⟨RuleType.remove,
          some (Redaction.replace (RValue.str ['x', 'y'])), none⟩⟩])]
        ⟨some (List.replicate 4294967296 'a'), Meta.empty⟩ ⟨some PiiKind.name, none⟩
        = some ⟨some ['x', 'y'], ⟨[Remark.new ⟨['w'], none⟩], [], some 0, none⟩⟩
    ∧ (some (0 : Nat)) ≠ some (4294967296 : Nat) := by
  have hw : charWidth 'a' = 1 := by decide
  have hlen : utf8Len (List.replicate 4294967296 'a') = 4294967296 := by
    rw [utf8Len_replicate, hw, Nat.mul_one]
  refine ⟨hlen, rfl, ?_, by decide⟩
  have hpc : ∀ cs : List Chunk, piiProcessChunks
      ⟨⟨fun _ => [], fun _ => false⟩, ⟨fun _ => [], fun _ => false⟩,
       ⟨fun _ => [], fun _ => false⟩, ⟨fun _ => [], fun _ => false⟩⟩
      (fun _ _ _ => [])
      [(PiiKind.name, [⟨['w'], ⟨RuleType.remove,
        some (Redaction.replace (RValue.str ['x', 'y'])), none⟩⟩])]
      cs Meta.empty PiiKind.name
      = some (Except.error (cs, Meta.empty)) := fun _ => rfl
  have hpv : ∀ s : RStr, piiProcessValue (fun _ _ _ => [])
      [(PiiKind.name, [⟨['w'], ⟨RuleType.remove,
        some (Redaction.replace (RValue.str ['x', 'y'])), none⟩⟩])]
      ⟨some (RValue.str s), Meta.empty⟩ PiiKind.name
      = ⟨some (RValue.str ['x', 'y']), ⟨[Remark.new ⟨['w'], none⟩], [], none, none⟩⟩ :=
    fun _ => rfl
  simp only [processString]
  rw [hpc]
  simp only []
  rw [hpv]
  simp only []
  rw [hlen]
  rw [if_pos ⟨by decide, by trivial⟩]
